import Mathlib

/-!
Verification of the logical-delete (soft-delete) subsystem of the
`pinax-models` fork: a shallow embedding of the data model, the query
filtering layer (`query.py`, `managers.py`), the related-object collector
(`deletion.py`), the soft-delete mutator (`models.py`, `utils.py`) and the
unique-check override (`models.py`), together with theorems settling the
specification claims about them.

Records are identified by a natural-number primary key, entity types
(model classes) by a natural number, timestamps by a natural number, and
foreign-key fields by name.  A database is a list of records; queries are
list filters.
-/

set_option autoImplicit false

namespace PinaxModels

/-- On-delete policy declared on a reference (Django `on_delete`). -/
inductive Policy where
  | cascade
  | protect
  | setNull
deriving DecidableEq

/-- A declared reference: records of model `fromModel` point, through the
foreign-key field named `field`, at records of model `toModel`. -/
structure Reference where
  fromModel : Nat
  field : String
  toModel : Nat
  policy : Policy
deriving DecidableEq

/-- A stored record: primary key, model class, soft-delete marker
(`date_removed`: `none` = active, `some t` = removed at time `t`) and
foreign-key fields (field name, referenced primary key or null). -/
structure Record where
  id : Nat
  model : Nat
  marker : Option Nat
  fields : List (String × Option Nat)
deriving DecidableEq

/-- A database is the list of stored records. -/
abbrev DB := List Record

/-- Schema metadata: the declared references, and which model classes are
soft-deletable (subclasses of `LogicalDeleteModel`, whose default manager
is `LogicalDeletedManager`). -/
structure Schema where
  refs : List Reference
  soft : Nat → Bool

/-- Value of a foreign-key field on a record (`none` when absent or null). -/
def fieldVal (r : Record) (f : String) : Option Nat :=
  (r.fields.lookup f).join

/-- Set a foreign-key field on a record. -/
def setField (r : Record) (f : String) (v : Option Nat) : Record :=
  { r with fields := r.fields.map (fun p => if p.1 = f then (p.1, v) else p) }

/-- Find the record with the given primary key. -/
def findRec (db : DB) (i : Nat) : Option Record :=
  db.find? (fun r => r.id == i)

/-- Soft-delete marker of the record with primary key `i` (`none` when the
record is absent or active). -/
def markerOf (db : DB) (i : Nat) : Option Nat :=
  (findRec db i).bind (fun r => r.marker)

/-- Model class of the record with primary key `i`. -/
def modelAt (db : DB) (i : Nat) : Option Nat :=
  (findRec db i).map (fun r => r.model)

/-- Embeds `LogicalDeleteQuerySet.not_deleted`: records whose marker is null. -/
def notDeleted (db : DB) : DB :=
  db.filter (fun r => r.marker.isNone)

/-- Embeds `LogicalDeleteQuerySet.deleted`: records whose marker is non-null. -/
def deletedOnly (db : DB) : DB :=
  db.filter (fun r => r.marker.isSome)

/-- Embeds `LogicalDeletedManager.all_with_deleted`: the unfiltered view. -/
def allWithDeleted (db : DB) : DB := db

/-- Embeds `LogicalDeletedManager.get_queryset`: the default view, which filters
to not-deleted records only. -/
def getQueryset (db : DB) : DB := notDeleted db

/-- Does a record match a set of lookup keyword arguments?  A `pk` lookup
matches the primary key; any other key matches the named field's value. -/
def recordMatches (r : Record) (lookups : List (String × Nat)) : Bool :=
  lookups.all (fun kv => if kv.1 = "pk" then r.id == kv.2 else fieldVal r kv.1 == some kv.2)

/-- Embeds `LogicalDeletedManager.get`: when `ACCESSIBLE_BY_PK` is set the lookup
runs over `all_with_deleted()`, otherwise over `get_queryset()`; the flag
is consulted unconditionally, whatever the lookup kwargs are. -/
def managerGetQS (accessibleByPk : Bool) (db : DB) (lookups : List (String × Nat)) : DB :=
  (if accessibleByPk then allWithDeleted db else getQueryset db).filter
    (fun r => recordMatches r lookups)

/-- Embeds `LogicalDeletedManager.filter`: runs over `all_with_deleted()` exactly
when a `pk` keyword argument is present and `ACCESSIBLE_BY_PK` is set. -/
def managerFilterQS (accessibleByPk : Bool) (db : DB) (lookups : List (String × Nat)) : DB :=
  (if (lookups.any (fun kv => kv.1 == "pk")) && accessibleByPk
    then allWithDeleted db else getQueryset db).filter
    (fun r => recordMatches r lookups)

/-- Modelled from the spec (claim wording, for comparison with
`managerGetQS`): a `get` lookup bypasses the active-only filter exactly
when it is a lookup by primary key and the flag is set. -/
def specManagerGetQS (accessibleByPk : Bool) (db : DB) (lookups : List (String × Nat)) : DB :=
  (if (lookups.any (fun kv => kv.1 == "pk")) && accessibleByPk
    then allWithDeleted db else getQueryset db).filter
    (fun r => recordMatches r lookups)

/-- Predicate of the queryset produced by
`related_model._default_manager.using(...).filter(field__in=objs)`: the
record belongs to the related model, references one of the given parents,
and — because the default manager of a soft-deletable model filters to
not-deleted records — is active whenever its model is soft-deletable. -/
def relMatch (sc : Schema) (m : Nat) (f : String) (parents : List Nat) (r : Record) : Bool :=
  r.model == m && (!(sc.soft m) || r.marker.isNone) &&
    (match fieldVal r f with
      | some p => parents.contains p
      | none => false)

/-- Embeds `LogicalDeleteCollector.related_objects`: related records of a batch of
parents, queried through the related model's default manager. -/
def relatedObjects (db : DB) (sc : Schema) (ref : Reference) (parents : List Nat) : List Record :=
  db.filter (relMatch sc ref.fromModel ref.field parents)

/-- Modelled from the spec (claim wording, for comparison with
`relatedObjects`): the same query issued against the unfiltered
"all records including soft-deleted" view. -/
def specRelatedObjects (db : DB) (ref : Reference) (parents : List Nat) : List Record :=
  db.filter (fun r =>
    r.model == ref.fromModel &&
      (match fieldVal r ref.field with
        | some p => parents.contains p
        | none => false))

/-- Concrete database for the C1 counterexample: an active root (model 0,
pk 1) and a soft-deleted child (model 1, pk 2) referencing it. -/
def c1db : DB :=
  [⟨1, 0, none, []⟩, ⟨2, 1, some 0, [("parent", some 1)]⟩]

/-- Schema for the C1 counterexample: model 1 cascades to model 0 through
`parent`; every model is soft-deletable. -/
def c1sc : Schema :=
  ⟨[⟨1, "parent", 0, Policy.cascade⟩], fun _ => true⟩

/-- Concrete database for the C6 counterexample: a single soft-deleted
record with a non-key field `name = 5`. -/
def c6db : DB :=
  [⟨1, 0, some 0, [("name", some 5)]⟩]

/-- Shape of the nested list returned by `nested()`: a flat sequence whose
elements are either records (by primary key) or nested child lists. -/
inductive NTree where
  | node (i : Nat)
  | sub (children : List NTree)

/-- An edge map `edges` as kept by the collector: ordered pairs of
(source record or the `None` root sentinel, target record). -/
abbrev Edges := List (Option Nat × Nat)

/-- Targets of a given source in insertion order (`edges.get(obj, ())`). -/
def childrenOf (edges : Edges) (src : Option Nat) : List Nat :=
  edges.filterMap (fun p => if p.1 = src then some p.2 else none)

mutual

/-- How many times record `x` is listed in a nested element. -/
def countT (x : Nat) : NTree → Nat
  | .node i => if i = x then 1 else 0
  | .sub cs => countL x cs

/-- How many times record `x` is listed in a nested list. -/
def countL (x : Nat) : List NTree → Nat
  | [] => 0
  | t :: ts => countT x t + countL x ts

end

mutual

/-- A nested element never contains an empty child list. -/
def goodT : NTree → Bool
  | .node _ => true
  | .sub cs => !cs.isEmpty && goodL cs

/-- A nested list never contains an empty child list. -/
def goodL : List NTree → Bool
  | [] => true
  | t :: ts => goodT t && goodL ts

end

mutual

/-- All records listed in a nested element, in order. -/
def flattenT : NTree → List Nat
  | .node i => [i]
  | .sub cs => flattenL cs

/-- All records listed in a nested list, in order
(`utils.get_related_objects`' `flatten`, before the root is excluded). -/
def flattenL : List NTree → List Nat
  | [] => []
  | t :: ts => flattenT t ++ flattenL ts

end

/-- Embeds `LogicalDeleteNestedObjects._nested`: renders one record.  If the
record was already seen it is skipped; otherwise it is added to `seen`,
its children (in edge insertion order) are rendered against the updated
`seen`, and the child list is appended only when non-empty.  `fuel` bounds
the recursion depth (the Python recursion terminates because `seen`
grows); the child sweep is a left fold threading the seen set. -/
def nestedOne (edges : Edges) : Nat → Nat → List Nat → List NTree × List Nat
  | 0, _, seen => ([], seen)
  | fuel + 1, obj, seen =>
    if obj ∈ seen then ([], seen)
    else
      let p := (childrenOf edges (some obj)).foldl
        (fun acc c =>
          (acc.1 ++ (nestedOne edges fuel c acc.2).1, (nestedOne edges fuel c acc.2).2))
        (([] : List NTree), obj :: seen)
      (NTree.node obj :: (if p.1.isEmpty then [] else [NTree.sub p.1]), p.2)

/-- Renders a list of records in order, threading the `seen` set:
the recursive view of `nestedOne`'s child sweep. -/
def nestedMany (edges : Edges) (fuel : Nat) : List Nat → List Nat → List NTree × List Nat
  | [], seen => ([], seen)
  | c :: rest, seen =>
    ((nestedOne edges fuel c seen).1 ++
        (nestedMany edges fuel rest (nestedOne edges fuel c seen).2).1,
      (nestedMany edges fuel rest (nestedOne edges fuel c seen).2).2)

/-- Embeds `LogicalDeleteNestedObjects.nested`: renders every root (targets of the
`None` sentinel) with a fresh `seen` set scoped to this call.  The fuel
`edges.length + 1` dominates the number of distinct renderable records. -/
def nestedTop (edges : Edges) : List NTree :=
  (nestedMany edges (edges.length + 1) (childrenOf edges none) []).1

/-- Indicator of membership in a seen set. -/
def seenInd (x : Nat) (s : List Nat) : Nat :=
  if x ∈ s then 1 else 0

/-- Invariant of one `_nested` call: the output lists `x` at most as many
times as `x` newly enters the seen set, and no empty child list is ever
emitted. -/
def OneInv (edges : Edges) (fuel : Nat) : Prop :=
  ∀ obj seen x,
    countL x (nestedOne edges fuel obj seen).1 + seenInd x seen ≤
        seenInd x (nestedOne edges fuel obj seen).2 ∧
      goodL (nestedOne edges fuel obj seen).1 = true

/-- Invariant of a `_nested` sweep over a record list. -/
def ManyInv (edges : Edges) (fuel : Nat) : Prop :=
  ∀ cs seen x,
    countL x (nestedMany edges fuel cs seen).1 + seenInd x seen ≤
        seenInd x (nestedMany edges fuel cs seen).2 ∧
      goodL (nestedMany edges fuel cs seen).1 = true

/-- A scheduled SET_NULL batch in `field_updates`: either a lazy queryset
(the filter's parent pks, re-evaluated at update time) or an
already-evaluated collection of record pks. -/
inductive FieldBatch where
  | lazy (parents : List Nat)
  | cached (ids : List Nat)
deriving DecidableEq

/-- Collector state: the presentation edge map, the protected set, the
per-model collected records, the deferred SET_NULL updates (keyed by
referencing model and field) and the set of pks already collected for
deletion (Django's `data`). -/
structure CState where
  edges : Edges
  prot : List Nat
  modelObjs : List (Nat × Nat)
  fieldUpdates : List ((Nat × String) × List FieldBatch)
  seen : List Nat
deriving DecidableEq

/-- The empty collector state. -/
def initState : CState := ⟨[], [], [], [], []⟩

/-- Set-style update of the protected set (`self.protected.update(...)`). -/
def protUpdate (prot ps : List Nat) : List Nat :=
  prot ++ ps.filter (fun p => !prot.contains p)

/-- The `LogicalDeleteNestedObjects.collect` prelude: for every passed
object add an edge (from the parent it references through `srcField`, or
from the root sentinel) and record it in `model_objs`. -/
def addNested (db : DB) (objIds : List Nat) (srcField : Option String) (s : CState) : CState :=
  objIds.foldl (fun acc i =>
    let src : Option Nat :=
      match srcField with
      | some f =>
        match findRec db i with
        | some r => fieldVal r f
        | none => none
      | none => none
    let mo : List (Nat × Nat) :=
      match findRec db i with
      | some r =>
        if acc.modelObjs.contains (r.model, i) then acc.modelObjs
        else acc.modelObjs ++ [(r.model, i)]
      | none => acc.modelObjs
    { acc with edges := acc.edges ++ [(src, i)], modelObjs := mo }) s

/-- Append a batch to the `field_updates` entry of the given key
(`(field, value)`; the value is always the null value for SET_NULL). -/
def addFieldUpdate (s : CState) (key : Nat × String) (b : FieldBatch) : CState :=
  { s with fieldUpdates :=
      if (s.fieldUpdates.lookup key).isSome then
        s.fieldUpdates.map (fun e => if e.1 = key then (e.1, e.2 ++ [b]) else e)
      else s.fieldUpdates ++ [(key, [b])] }

/-- The state a `collect` call starts from: `LogicalDeleteNestedObjects`
first records edges and `model_objs` for every passed object; the base
collector does not. -/
def preState (db : DB) (nest : Bool) (objIds : List Nat) (srcField : Option String)
    (s : CState) : CState :=
  if nest then addNested db objIds srcField s else s

/-- The objects of a batch not yet collected (Django's `add` returning
`new_objs`). -/
def newOf (s0 : CState) (objIds : List Nat) : List Nat :=
  objIds.filter (fun i => !(s0.seen.contains i))

/-- The `try/except ProtectedError` of `LogicalDeleteNestedObjects.collect`
around the base collection: with `nest = true` a pending abort is caught
and accumulated into `protected`; the base collector lets it propagate. -/
def catchWrap (nest : Bool) (p : CState × Option (List Nat)) : CState × Option (List Nat) :=
  if nest then
    match p.2 with
    | some ps => ({ p.1 with prot := protUpdate p.1.prot ps }, none)
    | none => (p.1, none)
  else p

/-- One `collect` call over a homogeneous batch of objects of model `mdl`.
With `nest = true` this is `LogicalDeleteNestedObjects.collect`; with
`nest = false` it is the base `LogicalDeleteCollector.collect` (used by
`hard_delete`).  The walk over the references pointing at `mdl` processes
them in declaration order: PROTECT aborts with the matching related
records (skipping the remaining references of this level), CASCADE
recurses into them, SET_NULL defers a lazy field update.  The second
component is the pending abort.  `fuel` bounds the recursion depth (each
level of the Python recursion adds at least one new pk to `seen`). -/
def collectRec (db : DB) (sc : Schema) (nest : Bool) :
    Nat → Nat → List Nat → Option String → CState → CState × Option (List Nat)
  | 0, _, _, _, s => (s, none)
  | fuel + 1, mdl, objIds, srcField, s =>
    let s0 := preState db nest objIds srcField s
    let newIds := newOf s0 objIds
    if newIds.isEmpty then (s0, none)
    else
      catchWrap nest
        ((sc.refs.filter (fun rf => rf.toModel == mdl)).foldl
          (fun acc ref =>
            match acc.2 with
            | some _ => acc
            | none =>
              if (relatedObjects db sc ref newIds).isEmpty then acc
              else
                match ref.policy with
                | Policy.protect =>
                  (acc.1, some ((relatedObjects db sc ref newIds).map (fun r => r.id)))
                | Policy.cascade =>
                  collectRec db sc nest fuel ref.fromModel
                    ((relatedObjects db sc ref newIds).map (fun r => r.id))
                    (some ref.field) acc.1
                | Policy.setNull =>
                  (addFieldUpdate acc.1 (ref.fromModel, ref.field) (FieldBatch.lazy newIds),
                    none))
          ({ s0 with seen := s0.seen ++ newIds }, none))

/-- The reference walk of one `collect` level, as a recursive function
(the recursive view of the fold inside `collectRec`). -/
def collectRefs (db : DB) (sc : Schema) (nest : Bool) (fuel : Nat) :
    List Reference → List Nat → CState → CState × Option (List Nat)
  | [], _, s => (s, none)
  | ref :: rest, batch, s =>
    if (relatedObjects db sc ref batch).isEmpty then
      collectRefs db sc nest fuel rest batch s
    else
      match ref.policy with
      | Policy.protect => (s, some ((relatedObjects db sc ref batch).map (fun r => r.id)))
      | Policy.cascade =>
        match collectRec db sc nest fuel ref.fromModel
            ((relatedObjects db sc ref batch).map (fun r => r.id)) (some ref.field) s with
        | (s', some ps) => (s', some ps)
        | (s', none) => collectRefs db sc nest fuel rest batch s'
      | Policy.setNull =>
        collectRefs db sc nest fuel rest batch
          (addFieldUpdate s (ref.fromModel, ref.field) (FieldBatch.lazy batch))

/-- Embeds `utils.get_collector`: a fresh `LogicalDeleteNestedObjects` collecting
from the given roots (all of model `mdl`).  The fuel `db.length + 1`
dominates the recursion depth, since every recursive level adds at least
one record of the database to `seen`. -/
def nestedCollect (db : DB) (sc : Schema) (mdl : Nat) (roots : List Nat) : CState :=
  (collectRec db sc true (db.length + 1) mdl roots none initState).1

/-- Errors surfaced by the delete paths. -/
inductive DErr where
  | protectedErr
  | precondition
deriving DecidableEq

/-- Persist a soft-delete marker
(`setattr(obj, FIELD_NAME, now); obj.save()`). -/
def markRecord (db : DB) (i t : Nat) : DB :=
  db.map (fun r => if r.id = i then { r with marker := some t } else r)

/-- Physically remove a record (plain `Model.delete` on a model without
logical-delete support). -/
def removeRecord (db : DB) (i : Nat) : DB :=
  db.filter (fun r => r.id != i)

/-- The cascade loop of `LogicalDeleteModel.delete`: for each related
object collected at the root walk (an in-memory snapshot), soft-delete it
without re-collecting when it is a not-yet-removed logical-delete record,
skip it when its marker is already set, and physically delete it when its
model has no logical-delete support. -/
def cascadeLoop (sc : Schema) (t : Nat) : DB → List Record → DB
  | db, [] => db
  | db, obj :: rest =>
    let db' :=
      if sc.soft obj.model then
        if obj.marker.isNone then markRecord db obj.id t else db
      else removeRecord db obj.id
    cascadeLoop sc t db' rest

/-- Embeds `utils.get_related_objects`' flatten step: the records listed by
`collector.nested()`, minus the root object itself. -/
def getRelatedIds (c : CState) (rootId : Nat) : List Nat :=
  (flattenL (nestedTop c.edges)).filter (fun i => i != rootId)

/-- Null the field `f` on every record satisfying `cond`. -/
def setNullOn (db : DB) (cond : Record → Bool) (f : String) : DB :=
  db.map (fun r => if cond r then setField r f none else r)

/-- One `field_updates` entry applied by `LogicalDeleteModel.delete`:
still-lazy querysets are OR-combined and applied as one bulk update over
the active view; already-evaluated collections fall through to a raw
`update_batch` whose pk list is taken — as in the source — from the loop
variable `instances`, i.e. from the LAST batch of the entry only. -/
def applyEntry (db : DB) (sc : Schema) (e : (Nat × String) × List FieldBatch) : DB :=
  let m := e.1.1
  let f := e.1.2
  let lazies := e.2.filterMap (fun b =>
    match b with
    | FieldBatch.lazy ps => some ps
    | FieldBatch.cached _ => none)
  let objsIds := (e.2.filterMap (fun b =>
    match b with
    | FieldBatch.cached ids => some ids
    | FieldBatch.lazy _ => none)).flatten
  let db1 :=
    if lazies.isEmpty then db
    else setNullOn db (relMatch sc m f lazies.flatten) f
  if objsIds.isEmpty then db1
  else
    let lastIds : List Nat :=
      match e.2.getLast? with
      | some (FieldBatch.lazy ps) => (db1.filter (relMatch sc m f ps)).map (fun r => r.id)
      | some (FieldBatch.cached ids) => ids
      | none => []
    setNullOn db1 (fun r => lastIds.contains r.id && r.model == m) f

/-- Apply all deferred SET_NULL updates, one entry at a time. -/
def applyFieldUpdates (db : DB) (sc : Schema)
    (entries : List ((Nat × String) × List FieldBatch)) : DB :=
  entries.foldl (fun d e => applyEntry d sc e) db

/-- Embeds `LogicalDeleteModel.delete` at root level (`_collect_related = True`):
collect related objects, fail with `ProtectedError` before any mutation
when the collector recorded protected records, otherwise run the cascade
loop over the collected snapshots, set the root's own marker to the
current time, and apply the deferred SET_NULL updates. -/
def softDelete (db : DB) (sc : Schema) (root : Record) (t : Nat) : Except DErr DB :=
  let c := nestedCollect db sc root.model [root.id]
  if c.prot.isEmpty then
    let toDelete := (getRelatedIds c root.id).filterMap (fun i => findRec db i)
    let db1 := cascadeLoop sc t db toDelete
    let db2 := markRecord db1 root.id t
    Except.ok (applyFieldUpdates db2 sc c.fieldUpdates)
  else Except.error DErr.protectedErr

/-- Exception semantics of a root-level delete: a raised
`ProtectedError` leaves the database as it was. -/
def runSoftDelete (db : DB) (sc : Schema) (root : Record) (t : Nat) : DB :=
  match softDelete db sc root t with
  | Except.ok db' => db'
  | Except.error _ => db

/-- A manager-produced queryset: the model it ranges over, the user's
filter kwargs, and whether a row limit or offset has been applied
(`not query.can_filter()`). -/
structure LDQuerySet where
  mdl : Nat
  lookups : List (String × Nat)
  limited : Bool

/-- The records a queryset matches: the manager's base queryset is
`not_deleted()`, further filtered by model and lookups. -/
def qsRecords (db : DB) (qs : LDQuerySet) : List Record :=
  db.filter (fun r => r.marker.isNone && r.model == qs.mdl && recordMatches r qs.lookups)

/-- The loop of `LogicalDeleteQuerySet.delete`: each matching record gets
a full root-level `soft_delete`; an exception aborts the loop, keeping the
mutations of the earlier iterations. -/
def qsSoftLoop (sc : Schema) (t : Nat) : DB → List Record → DB × Option DErr
  | db, [] => (db, none)
  | db, obj :: rest =>
    match softDelete db sc obj t with
    | Except.ok db' => qsSoftLoop sc t db' rest
    | Except.error e => (db, some e)

/-- Embeds `LogicalDeleteQuerySet.hard_delete`: asserts the precondition, then
one bulk pass of the base `LogicalDeleteCollector` over the whole batch —
a protected abort propagates before any write; otherwise the deferred
field updates run and every collected record is physically removed. -/
def qsHardDelete (db : DB) (sc : Schema) (qs : LDQuerySet) : DB × Option DErr :=
  if qs.limited then (db, some DErr.precondition)
  else
    let p := collectRec db sc false (db.length + 1) qs.mdl
      ((qsRecords db qs).map (fun r => r.id)) none initState
    match p.2 with
    | some _ => (db, some DErr.protectedErr)
    | none =>
      ((applyFieldUpdates db sc p.1.fieldUpdates).filter
        (fun r => !(p.1.seen.contains r.id)), none)

/-- Embeds `LogicalDeleteQuerySet.delete`: `hard_delete` when forced, otherwise
the precondition assertion followed by the per-record soft-delete loop. -/
def qsDelete (db : DB) (sc : Schema) (qs : LDQuerySet) (t : Nat) (hard : Bool) :
    DB × Option DErr :=
  if hard then qsHardDelete db sc qs
  else if qs.limited then (db, some DErr.precondition)
  else qsSoftLoop sc t db (qsRecords db qs)

/-- The in-memory instance being validated: its pk (absent while adding),
whether it is being added (`self._state.adding`) and its field values. -/
structure ValInstance where
  pkVal : Option Nat
  adding : Bool
  flds : List (String × Option Nat)

/-- Value of a field on the instance under validation. -/
def instField (inst : ValInstance) (f : String) : Option Nat :=
  (inst.flds.lookup f).join

/-- The lookup kwargs built by `_perform_unique_checks` for one unique
check: fields with no value are skipped, as are primary-key fields when
editing; `none` when any field was skipped (the check is then not run,
mirroring the `len(unique_check) != len(lookup_kwargs)` test). -/
def buildLookup (pkFields : List String) (inst : ValInstance) (uc : List String) :
    Option (List (String × Nat)) :=
  let pairs := uc.filterMap (fun f =>
    match instField inst f with
    | none => none
    | some v =>
      if pkFields.contains f && !inst.adding then none else some (f, v))
  if pairs.length = uc.length then some pairs else none

/-- Embeds `_get_queryset_for_unique_checks` followed by the lookup filter: the
manager's `all_with_deleted()` when the manager provides it, else the
manager's (active-only) default view. -/
def uniqueCheckQS (hasAllWithDeleted : Bool) (db : DB) (mdl : Nat)
    (lookups : List (String × Nat)) : List Record :=
  (if hasAllWithDeleted then db else db.filter (fun r => r.marker.isNone)).filter
    (fun r => r.model == mdl && lookups.all (fun kv => fieldVal r kv.1 == some kv.2))

/-- Embeds `_perform_unique_checks`: reports an error when some unique check
finds a conflicting row, after excluding the instance itself when
editing. -/
def performUniqueChecks (hasAllWithDeleted : Bool) (db : DB) (mdl : Nat)
    (pkFields : List String) (inst : ValInstance)
    (uniqueChecks : List (List String)) : Bool :=
  uniqueChecks.any (fun uc =>
    match buildLookup pkFields inst uc with
    | none => false
    | some lks =>
      !(if !inst.adding && inst.pkVal.isSome
        then (uniqueCheckQS hasAllWithDeleted db mdl lks).filter
          (fun r => some r.id != inst.pkVal)
        else uniqueCheckQS hasAllWithDeleted db mdl lks).isEmpty)

/-- Auxiliary: `deleted()` is the boolean complement of `not_deleted()`. -/
theorem deletedOnly_eq_filter_not (db : DB) :
    deletedOnly db = db.filter (fun r => !(r.marker.isNone)) := by
  unfold deletedOnly
  congr 1
  funext r
  cases r.marker <;> rfl

/-- C7: the three query views partition the records: `not_deleted()` only
returns records with a null marker, `deleted()` only records with a
non-null marker, `all_with_deleted()` is the identity and is a permutation
of the two filtered views put together, and the default queryset is
`not_deleted()`. -/
theorem query_views_partition (db : DB) (r : Record) :
    (r ∈ notDeleted db → r.marker = none) ∧
    (r ∈ deletedOnly db → r.marker ≠ none) ∧
    allWithDeleted db = db ∧
    (notDeleted db ++ deletedOnly db).Perm db ∧
    getQueryset db = notDeleted db := by
  refine ⟨?_, ?_, rfl, ?_, rfl⟩
  · intro h
    have h' := (List.mem_filter.mp h).2
    exact Option.isNone_iff_eq_none.mp h'
  · intro h
    have h' := (List.mem_filter.mp h).2
    intro hnone
    rw [hnone] at h'
    simp at h'
  · rw [deletedOnly_eq_filter_not]
    exact List.filter_append_perm _ db

/-- Witness for C7 at a concrete database. -/
theorem query_views_partition_witness :
    (⟨2, 0, some 3, []⟩ : Record).marker ≠ none :=
  (query_views_partition [⟨1, 0, none, []⟩, ⟨2, 0, some 3, []⟩] ⟨2, 0, some 3, []⟩).2.1
    (by decide)

/-- Counterexample to C1 as stated: the collector's related-object query is
NOT issued against the all-records view — the soft-deleted child is
excluded, so the two querysets differ on this concrete database. -/
theorem related_objects_not_all_view :
    relatedObjects c1db c1sc ⟨1, "parent", 0, Policy.cascade⟩ [1] ≠
      specRelatedObjects c1db ⟨1, "parent", 0, Policy.cascade⟩ [1] := by
  decide

/-- C1 amended: the related-object query goes through the related model's
default manager, so for a soft-deletable related model it is the
active-only view — a record is returned exactly when it belongs to the
related model, references one of the parents, and is active whenever its
model is soft-deletable. -/
theorem related_objects_default_manager (db : DB) (sc : Schema) (ref : Reference)
    (parents : List Nat) (r : Record) :
    r ∈ relatedObjects db sc ref parents ↔
      (r ∈ db ∧ r.model = ref.fromModel ∧
        (∃ p, fieldVal r ref.field = some p ∧ p ∈ parents) ∧
        (sc.soft ref.fromModel = true → r.marker = none)) := by
  unfold relatedObjects relMatch
  rw [List.mem_filter]
  constructor
  · rintro ⟨hmem, hb⟩
    rw [Bool.and_eq_true, Bool.and_eq_true] at hb
    obtain ⟨⟨h1, h2⟩, h3⟩ := hb
    refine ⟨hmem, by simpa using h1, ?_, ?_⟩
    · cases hf : fieldVal r ref.field with
      | none => rw [hf] at h3; simp at h3
      | some p =>
        rw [hf] at h3
        exact ⟨p, rfl, by simpa using h3⟩
    · intro hsoft
      rw [hsoft] at h2
      simp at h2
      exact h2
  · rintro ⟨hmem, hmodel, ⟨p, hp, hpmem⟩, hsoft⟩
    refine ⟨hmem, ?_⟩
    rw [Bool.and_eq_true, Bool.and_eq_true]
    refine ⟨⟨by simpa using hmodel, ?_⟩, ?_⟩
    · cases hs : sc.soft ref.fromModel with
      | false => simp
      | true => simp [hsoft hs]
    · rw [hp]
      simpa using hpmem

/-- Witness for the amended C1 theorem at a concrete input: an active
child referencing parent 1 is returned by the query. -/
theorem related_objects_default_manager_witness :
    (⟨2, 1, none, [("parent", some 1)]⟩ : Record) ∈
      relatedObjects [⟨1, 0, none, []⟩, ⟨2, 1, none, [("parent", some 1)]⟩] c1sc
        ⟨1, "parent", 0, Policy.cascade⟩ [1] :=
  (related_objects_default_manager _ c1sc _ [1] _).mpr
    ⟨by decide, by decide, ⟨1, by decide, by decide⟩, fun _ => by decide⟩

/-- Counterexample to C6 as stated: with `ACCESSIBLE_BY_PK` enabled, a
`get` lookup that is NOT by primary key still bypasses the active-only
filter, so `get` differs from the spec's "exactly the pk lookups bypass"
reading on this concrete database. -/
theorem manager_get_bypasses_nonpk :
    managerGetQS true c6db [("name", 5)] ≠ specManagerGetQS true c6db [("name", 5)] := by
  decide

/-- C6 amended: with the flag off, `get` and `filter` lookups only return
active records; with the flag on, `get` runs over the unfiltered view for
every lookup (not only pk lookups), `filter` runs over the unfiltered view
exactly when a `pk` kwarg is present, and in particular every record —
removed or not — remains fetchable by primary key. -/
theorem manager_lookup_views (db : DB) (lookups : List (String × Nat)) (r : Record) :
    ((r ∈ managerGetQS false db lookups ∨ r ∈ managerFilterQS false db lookups) →
        r.marker = none) ∧
    managerGetQS true db lookups = db.filter (fun x => recordMatches x lookups) ∧
    ((lookups.any (fun kv => kv.1 == "pk")) = true →
        managerFilterQS true db lookups = db.filter (fun x => recordMatches x lookups)) ∧
    ((lookups.any (fun kv => kv.1 == "pk")) = false →
        managerFilterQS true db lookups =
          (getQueryset db).filter (fun x => recordMatches x lookups) ∧
        (r ∈ managerFilterQS true db lookups → r.marker = none)) ∧
    (r ∈ db → r ∈ managerFilterQS true db [("pk", r.id)]) := by
  refine ⟨?_, ?_, ?_, ?_, ?_⟩
  · intro h
    have hmem : r ∈ getQueryset db := by
      rcases h with h | h
      · simp only [managerGetQS, Bool.false_eq_true, if_false, List.mem_filter] at h
        exact h.1
      · simp only [managerFilterQS, Bool.and_false, Bool.false_eq_true, if_false,
          List.mem_filter] at h
        exact h.1
    exact Option.isNone_iff_eq_none.mp (List.mem_filter.mp hmem).2
  · simp [managerGetQS, allWithDeleted]
  · intro hpk
    unfold managerFilterQS
    rw [hpk, Bool.true_and, if_pos rfl]
    rfl
  · intro hpk
    have heq : managerFilterQS true db lookups =
        (getQueryset db).filter (fun x => recordMatches x lookups) := by
      unfold managerFilterQS
      rw [hpk, Bool.false_and, if_neg Bool.false_ne_true]
    refine ⟨heq, ?_⟩
    intro hmem
    rw [heq] at hmem
    have hact : r ∈ getQueryset db := (List.mem_filter.mp hmem).1
    exact Option.isNone_iff_eq_none.mp (List.mem_filter.mp hact).2
  · intro hmem
    unfold managerFilterQS
    have hpk : ([(("pk" : String), r.id)].any (fun kv => kv.1 == "pk")) = true := rfl
    rw [hpk, Bool.true_and, if_pos rfl]
    refine List.mem_filter.mpr ⟨hmem, ?_⟩
    simp [recordMatches]

/-- Witness for the amended C6 theorem: the soft-deleted record of `c6db`
is still fetchable through a pk filter when the flag is on, yet a flag-on
`filter` lookup without a pk kwarg respects the active-only view and does
not return it. -/
theorem manager_lookup_views_witness :
    (⟨1, 0, some 0, [("name", some 5)]⟩ : Record) ∈
      managerFilterQS true c6db [("pk", 1)] ∧
    (⟨1, 0, some 0, [("name", some 5)]⟩ : Record) ∉
      managerFilterQS true c6db [("name", 5)] :=
  ⟨(manager_lookup_views c6db [("name", 5)] ⟨1, 0, some 0, [("name", some 5)]⟩).2.2.2.2
      (by decide),
    fun hmem =>
      absurd
        (((manager_lookup_views c6db [("name", 5)]
            ⟨1, 0, some 0, [("name", some 5)]⟩).2.2.2.1 (by decide)).2 hmem)
        (by decide)⟩

/-- The child sweep fold computes `nestedMany`, with the accumulated
output prepended. -/
theorem sweep_eq_nestedMany (edges : Edges) (fuel : Nat) :
    ∀ (cs : List Nat) (out : List NTree) (seen : List Nat),
      cs.foldl
          (fun acc c =>
            (acc.1 ++ (nestedOne edges fuel c acc.2).1, (nestedOne edges fuel c acc.2).2))
          (out, seen) =
        (out ++ (nestedMany edges fuel cs seen).1, (nestedMany edges fuel cs seen).2) := by
  intro cs
  induction cs with
  | nil =>
    intro out seen
    simp [nestedMany]
  | cons c rest ih =>
    intro out seen
    rw [List.foldl_cons, ih]
    simp [nestedMany, List.append_assoc]

theorem countL_append (x : Nat) (a b : List NTree) :
    countL x (a ++ b) = countL x a + countL x b := by
  induction a with
  | nil => simp [countL]
  | cons t ts ih => simp [countL, ih]; omega

theorem goodL_append (a b : List NTree) :
    goodL (a ++ b) = (goodL a && goodL b) := by
  induction a with
  | nil => simp [goodL]
  | cons t ts ih => simp [goodL, ih, Bool.and_assoc]

theorem nestedOne_zero (edges : Edges) (obj : Nat) (seen : List Nat) :
    nestedOne edges 0 obj seen = ([], seen) := by
  simp [nestedOne]

theorem nestedOne_succ_mem (edges : Edges) (fuel obj : Nat) (seen : List Nat)
    (h : obj ∈ seen) :
    nestedOne edges (fuel + 1) obj seen = ([], seen) := by
  simp [nestedOne, h]

theorem nestedOne_succ_new (edges : Edges) (fuel obj : Nat) (seen : List Nat)
    (h : obj ∉ seen) :
    nestedOne edges (fuel + 1) obj seen =
      (NTree.node obj ::
          (if (nestedMany edges fuel (childrenOf edges (some obj)) (obj :: seen)).1.isEmpty
            then []
            else [NTree.sub (nestedMany edges fuel (childrenOf edges (some obj)) (obj :: seen)).1]),
        (nestedMany edges fuel (childrenOf edges (some obj)) (obj :: seen)).2) := by
  simp only [nestedOne, if_neg h]
  rw [sweep_eq_nestedMany]
  simp only [List.nil_append]

theorem nestedMany_nil (edges : Edges) (fuel : Nat) (seen : List Nat) :
    nestedMany edges fuel [] seen = ([], seen) := rfl

theorem nestedMany_cons (edges : Edges) (fuel c : Nat) (rest seen : List Nat) :
    nestedMany edges fuel (c :: rest) seen =
      ((nestedOne edges fuel c seen).1 ++
          (nestedMany edges fuel rest (nestedOne edges fuel c seen).2).1,
        (nestedMany edges fuel rest (nestedOne edges fuel c seen).2).2) := rfl

theorem nestedOne_succ_new_fst (edges : Edges) (fuel obj : Nat) (seen : List Nat)
    (h : obj ∉ seen) :
    (nestedOne edges (fuel + 1) obj seen).1 =
      NTree.node obj ::
        (if (nestedMany edges fuel (childrenOf edges (some obj)) (obj :: seen)).1.isEmpty
          then []
          else [NTree.sub (nestedMany edges fuel (childrenOf edges (some obj)) (obj :: seen)).1]) := by
  rw [nestedOne_succ_new edges fuel obj seen h]

theorem nestedOne_succ_new_snd (edges : Edges) (fuel obj : Nat) (seen : List Nat)
    (h : obj ∉ seen) :
    (nestedOne edges (fuel + 1) obj seen).2 =
      (nestedMany edges fuel (childrenOf edges (some obj)) (obj :: seen)).2 := by
  rw [nestedOne_succ_new edges fuel obj seen h]

theorem nestedMany_cons_fst (edges : Edges) (fuel c : Nat) (rest seen : List Nat) :
    (nestedMany edges fuel (c :: rest) seen).1 =
      (nestedOne edges fuel c seen).1 ++
        (nestedMany edges fuel rest (nestedOne edges fuel c seen).2).1 := by
  rw [nestedMany_cons]

theorem nestedMany_cons_snd (edges : Edges) (fuel c : Nat) (rest seen : List Nat) :
    (nestedMany edges fuel (c :: rest) seen).2 =
      (nestedMany edges fuel rest (nestedOne edges fuel c seen).2).2 := by
  rw [nestedMany_cons]

theorem seenInd_le_one (x : Nat) (s : List Nat) : seenInd x s ≤ 1 := by
  unfold seenInd
  split <;> omega

theorem seenInd_cons_self (x : Nat) (s : List Nat) : seenInd x (x :: s) = 1 := by
  simp [seenInd]

theorem seenInd_cons_ne (x o : Nat) (s : List Nat) (h : x ≠ o) :
    seenInd x (o :: s) = seenInd x s := by
  unfold seenInd
  by_cases hxs : x ∈ s
  · rw [if_pos (List.mem_cons_of_mem o hxs), if_pos hxs]
  · rw [if_neg ?_, if_neg hxs]
    intro hc
    rcases List.mem_cons.mp hc with h' | h'
    · exact h h'
    · exact hxs h'

theorem seenInd_of_not_mem (x : Nat) (s : List Nat) (h : x ∉ s) : seenInd x s = 0 := by
  simp [seenInd, h]

theorem manyInv_of_oneInv (edges : Edges) (fuel : Nat) (h : OneInv edges fuel) :
    ManyInv edges fuel := by
  intro cs
  induction cs with
  | nil =>
    intro seen x
    rw [nestedMany_nil]
    simp [countL, seenInd, goodL]
  | cons c rest ih =>
    intro seen x
    have h1 := h c seen x
    have h2 := ih (nestedOne edges fuel c seen).2 x
    rw [nestedMany_cons_fst, nestedMany_cons_snd]
    constructor
    · rw [countL_append]
      omega
    · rw [goodL_append, Bool.and_eq_true]
      exact ⟨h1.2, h2.2⟩

theorem oneInv_all (edges : Edges) (fuel : Nat) : OneInv edges fuel := by
  induction fuel with
  | zero =>
    intro obj seen x
    rw [nestedOne_zero]
    simp [countL, goodL, seenInd]
  | succ fuel ih =>
    have hm := manyInv_of_oneInv edges fuel ih
    intro obj seen x
    by_cases hseen : obj ∈ seen
    · rw [nestedOne_succ_mem edges fuel obj seen hseen]
      simp [countL, goodL, seenInd]
    · have hrec := hm (childrenOf edges (some obj)) (obj :: seen) x
      obtain ⟨hrec1, hrec2⟩ := hrec
      rw [nestedOne_succ_new_fst edges fuel obj seen hseen,
        nestedOne_succ_new_snd edges fuel obj seen hseen]
      constructor
      · have hcount :
            countL x (NTree.node obj ::
                (if (nestedMany edges fuel (childrenOf edges (some obj)) (obj :: seen)).1.isEmpty
                  then []
                  else [NTree.sub
                    (nestedMany edges fuel (childrenOf edges (some obj)) (obj :: seen)).1])) =
              (if obj = x then 1 else 0) +
                countL x (nestedMany edges fuel (childrenOf edges (some obj)) (obj :: seen)).1 := by
          cases hp : (nestedMany edges fuel (childrenOf edges (some obj)) (obj :: seen)).1 with
          | nil => simp [countL, countT]
          | cons t ts => simp [countL, countT]
        rw [hcount]
        by_cases hx : x = obj
        · have e1 : seenInd x (obj :: seen) = 1 := by
            rw [hx]; exact seenInd_cons_self obj seen
          have e2 : seenInd x seen = 0 := by
            rw [hx]; exact seenInd_of_not_mem obj seen hseen
          have e3 : (if obj = x then 1 else 0) = 1 := if_pos hx.symm
          rw [e1] at hrec1
          rw [e2, e3]
          have hle := seenInd_le_one x
            (nestedMany edges fuel (childrenOf edges (some obj)) (obj :: seen)).2
          omega
        · rw [seenInd_cons_ne x obj seen hx] at hrec1
          rw [if_neg (fun hc => hx hc.symm)]
          omega
      · cases hp : (nestedMany edges fuel (childrenOf edges (some obj)) (obj :: seen)).1 with
        | nil => simp [goodL, goodT]
        | cons t ts =>
          rw [hp] at hrec2
          simp [goodL, goodT]
          simpa [goodL] using hrec2

/-- C4: within a single `nested()` call, over any edge map (cyclic ones and
diamonds included), each record is listed at most once — the call-scoped
`seen` set skips a record the second time it is reached — and a child list
is appended to the output only when it is non-empty. -/
theorem nested_lists_each_record_once (edges : Edges) (x : Nat) :
    countL x (nestedTop edges) ≤ 1 ∧ goodL (nestedTop edges) = true := by
  have h := manyInv_of_oneInv edges (edges.length + 1) (oneInv_all edges (edges.length + 1))
  have h' := h (childrenOf edges none) [] x
  unfold nestedTop
  refine ⟨?_, h'.2⟩
  have h0 : seenInd x ([] : List Nat) = 0 := by simp [seenInd]
  have h1 := seenInd_le_one x (nestedMany edges (edges.length + 1) (childrenOf edges none) []).2
  omega

/-- An aborted reference walk ignores the remaining references. -/
theorem refsFold_aborted (db : DB) (sc : Schema) (nest : Bool) (fuel : Nat)
    (batch : List Nat) :
    ∀ (refs : List Reference) (s : CState) (ps : List Nat),
      refs.foldl
          (fun acc ref =>
            match acc.2 with
            | some _ => acc
            | none =>
              if (relatedObjects db sc ref batch).isEmpty then acc
              else
                match ref.policy with
                | Policy.protect =>
                  (acc.1, some ((relatedObjects db sc ref batch).map (fun r => r.id)))
                | Policy.cascade =>
                  collectRec db sc nest fuel ref.fromModel
                    ((relatedObjects db sc ref batch).map (fun r => r.id))
                    (some ref.field) acc.1
                | Policy.setNull =>
                  (addFieldUpdate acc.1 (ref.fromModel, ref.field) (FieldBatch.lazy batch),
                    none))
          (s, some ps) = (s, some ps) := by
  intro refs
  induction refs with
  | nil => intro s ps; rfl
  | cons ref rest ih => intro s ps; rw [List.foldl_cons]; exact ih s ps

/-- Unfolding `collectRefs` on an empty reference list. -/
theorem collectRefs_nil (db : DB) (sc : Schema) (nest : Bool) (fuel : Nat)
    (batch : List Nat) (s : CState) :
    collectRefs db sc nest fuel [] batch s = (s, none) := rfl

/-- Unfolding `collectRefs` on a reference-list head. -/
theorem collectRefs_cons (db : DB) (sc : Schema) (nest : Bool) (fuel : Nat)
    (ref : Reference) (rest : List Reference) (batch : List Nat) (s : CState) :
    collectRefs db sc nest fuel (ref :: rest) batch s =
      (if (relatedObjects db sc ref batch).isEmpty then
        collectRefs db sc nest fuel rest batch s
      else
        match ref.policy with
        | Policy.protect => (s, some ((relatedObjects db sc ref batch).map (fun r => r.id)))
        | Policy.cascade =>
          match collectRec db sc nest fuel ref.fromModel
              ((relatedObjects db sc ref batch).map (fun r => r.id)) (some ref.field) s with
          | (s', some ps) => (s', some ps)
          | (s', none) => collectRefs db sc nest fuel rest batch s'
        | Policy.setNull =>
          collectRefs db sc nest fuel rest batch
            (addFieldUpdate s (ref.fromModel, ref.field) (FieldBatch.lazy batch))) := rfl

/-- The reference-walk fold inside `collectRec` computes `collectRefs`. -/
theorem refsFold_eq (db : DB) (sc : Schema) (nest : Bool) (fuel : Nat)
    (batch : List Nat) :
    ∀ (refs : List Reference) (s : CState),
      refs.foldl
          (fun acc ref =>
            match acc.2 with
            | some _ => acc
            | none =>
              if (relatedObjects db sc ref batch).isEmpty then acc
              else
                match ref.policy with
                | Policy.protect =>
                  (acc.1, some ((relatedObjects db sc ref batch).map (fun r => r.id)))
                | Policy.cascade =>
                  collectRec db sc nest fuel ref.fromModel
                    ((relatedObjects db sc ref batch).map (fun r => r.id))
                    (some ref.field) acc.1
                | Policy.setNull =>
                  (addFieldUpdate acc.1 (ref.fromModel, ref.field) (FieldBatch.lazy batch),
                    none))
          (s, none) = collectRefs db sc nest fuel refs batch s := by
  intro refs
  induction refs with
  | nil => intro s; rfl
  | cons ref rest ih =>
    intro s
    rw [List.foldl_cons]
    show rest.foldl _
        (if (relatedObjects db sc ref batch).isEmpty then ((s, none) : CState × Option (List Nat))
          else
            match ref.policy with
            | Policy.protect =>
              (s, some ((relatedObjects db sc ref batch).map (fun r => r.id)))
            | Policy.cascade =>
              collectRec db sc nest fuel ref.fromModel
                ((relatedObjects db sc ref batch).map (fun r => r.id)) (some ref.field) s
            | Policy.setNull =>
              (addFieldUpdate s (ref.fromModel, ref.field) (FieldBatch.lazy batch), none)) =
      collectRefs db sc nest fuel (ref :: rest) batch s
    by_cases hch : (relatedObjects db sc ref batch).isEmpty
    · rw [if_pos hch, ih, collectRefs_cons, if_pos hch]
    · rw [if_neg hch, collectRefs_cons, if_neg hch]
      cases hpol : ref.policy with
      | protect => exact refsFold_aborted db sc nest fuel batch rest s _
      | cascade =>
        cases hp : collectRec db sc nest fuel ref.fromModel
            ((relatedObjects db sc ref batch).map (fun r => r.id)) (some ref.field) s with
        | mk s' e =>
          cases e with
          | some ps => exact refsFold_aborted db sc nest fuel batch rest s' ps
          | none => exact ih s'
      | setNull => exact ih _

/-- Unfolding `collectRec` at zero fuel. -/
theorem collectRec_zero (db : DB) (sc : Schema) (nest : Bool) (mdl : Nat)
    (objIds : List Nat) (srcField : Option String) (s : CState) :
    collectRec db sc nest 0 mdl objIds srcField s = (s, none) := rfl

/-- Unfolding `collectRec` at positive fuel, in terms of `collectRefs`. -/
theorem collectRec_succ (db : DB) (sc : Schema) (nest : Bool) (fuel mdl : Nat)
    (objIds : List Nat) (srcField : Option String) (s : CState) :
    collectRec db sc nest (fuel + 1) mdl objIds srcField s =
      (if (newOf (preState db nest objIds srcField s) objIds).isEmpty
        then (preState db nest objIds srcField s, none)
        else
          catchWrap nest
            (collectRefs db sc nest fuel (sc.refs.filter (fun rf => rf.toModel == mdl))
              (newOf (preState db nest objIds srcField s) objIds)
              { preState db nest objIds srcField s with
                seen := (preState db nest objIds srcField s).seen ++
                  newOf (preState db nest objIds srcField s) objIds })) := by
  conv_lhs => rw [collectRec]
  rw [refsFold_eq]

/-- Counterexample to C2 as stated for every graph with a reachable
PROTECT edge: when the PROTECT edge's referencing record is itself
soft-deleted, the collector's active-only related-object query does not
see it, so the root-level soft delete succeeds and writes the root's
marker instead of raising. -/
theorem protect_edge_soft_deleted_does_not_block :
    softDelete [⟨1, 0, none, []⟩, ⟨2, 1, some 0, [("parent", some 1)]⟩]
        ⟨[⟨1, "parent", 0, Policy.protect⟩], fun _ => true⟩ ⟨1, 0, none, []⟩ 5 =
      Except.ok [⟨1, 0, some 5, []⟩, ⟨2, 1, some 0, [("parent", some 1)]⟩] := rfl

/-- C2 amended: when the collector's walk over the root records protected
violations — i.e. a PROTECT reference with a still-active referencing
record is encountered during the active-only collection — the root-level
soft delete raises `ProtectedError` and no marker is written: the
database is untouched. -/
theorem protect_blocks_soft_delete (db : DB) (sc : Schema) (root : Record) (t : Nat)
    (h : (nestedCollect db sc root.model [root.id]).prot ≠ []) :
    softDelete db sc root t = Except.error DErr.protectedErr ∧
    runSoftDelete db sc root t = db ∧
    (∀ i, markerOf (runSoftDelete db sc root t) i = markerOf db i) := by
  have he : (nestedCollect db sc root.model [root.id]).prot.isEmpty = false := by
    rcases hp : (nestedCollect db sc root.model [root.id]).prot with _ | ⟨a, l⟩
    · exact absurd hp h
    · rfl
  have h1 : softDelete db sc root t = Except.error DErr.protectedErr := by
    simp only [softDelete, he]
    simp
  have h2 : runSoftDelete db sc root t = db := by
    unfold runSoftDelete
    rw [h1]
  exact ⟨h1, h2, fun i => by rw [h2]⟩

/-- Witness for C2: an active PROTECT child blocks the delete of its
parent and the database is returned unchanged. -/
theorem protect_blocks_soft_delete_witness :
    softDelete [⟨1, 0, none, []⟩, ⟨2, 1, none, [("parent", some 1)]⟩]
        ⟨[⟨1, "parent", 0, Policy.protect⟩], fun _ => true⟩ ⟨1, 0, none, []⟩ 5 =
      Except.error DErr.protectedErr :=
  (protect_blocks_soft_delete [⟨1, 0, none, []⟩, ⟨2, 1, none, [("parent", some 1)]⟩]
      ⟨[⟨1, "parent", 0, Policy.protect⟩], fun _ => true⟩ ⟨1, 0, none, []⟩ 5
      (by decide)).1

/-- Helper for C9: the nested collector never surfaces a pending abort —
every protected violation is caught and recorded in state. -/
theorem collectRec_nested_no_abort (db : DB) (sc : Schema) (fuel mdl : Nat)
    (ids : List Nat) (sf : Option String) (s : CState) :
    (collectRec db sc true fuel mdl ids sf s).2 = none := by
  cases fuel with
  | zero => rfl
  | succ fuel =>
    rw [collectRec_succ]
    by_cases hemp : (newOf (preState db true ids sf s) ids).isEmpty
    · rw [if_pos hemp]
    · rw [if_neg hemp]
      unfold catchWrap
      cases hp : (collectRefs db sc true fuel (sc.refs.filter (fun rf => rf.toModel == mdl))
          (newOf (preState db true ids sf s) ids)
          { preState db true ids sf s with
            seen := (preState db true ids sf s).seen ++
              newOf (preState db true ids sf s) ids }).2 with
      | none => simp [hp]
      | some ps => simp [hp]

/-- C9: the nested collector's `collect` returns normally on every input
(the base collector's protected abort is always caught), and it is only
the mutator that turns a non-empty `protected` into a raised error:
`soft_delete` raises `ProtectedError` exactly when the collector recorded
protected records, and succeeds otherwise. -/
theorem collect_never_raises_mutator_converts (db : DB) (sc : Schema) (root : Record)
    (t fuel mdl : Nat) (ids : List Nat) (sf : Option String) (s : CState) :
    (collectRec db sc true fuel mdl ids sf s).2 = none ∧
    (softDelete db sc root t = Except.error DErr.protectedErr ↔
      (nestedCollect db sc root.model [root.id]).prot ≠ []) ∧
    ((nestedCollect db sc root.model [root.id]).prot = [] →
      ∃ db', softDelete db sc root t = Except.ok db') := by
  refine ⟨collectRec_nested_no_abort db sc fuel mdl ids sf s, ?_, ?_⟩
  · rcases hp : (nestedCollect db sc root.model [root.id]).prot with _ | ⟨a, l⟩
    · constructor
      · intro herr
        exfalso
        simp only [softDelete, hp] at herr
        simp at herr
      · intro hne
        exact absurd rfl hne
    · constructor
      · intro _
        simp
      · intro _
        simp only [softDelete, hp]
        simp
  · intro hp
    simp only [softDelete, hp]
    simp only [List.isEmpty_nil, if_true]
    exact ⟨_, rfl⟩

/-- Witness for C9: on the protected database of the C2 witness the
mutator raises, and on a protect-free database it succeeds. -/
theorem collect_never_raises_mutator_converts_witness :
    softDelete [⟨1, 0, none, []⟩, ⟨2, 1, none, [("parent", some 1)]⟩]
        ⟨[⟨1, "parent", 0, Policy.protect⟩], fun _ => true⟩ ⟨1, 0, none, []⟩ 5 =
      Except.error DErr.protectedErr :=
  (collect_never_raises_mutator_converts [⟨1, 0, none, []⟩, ⟨2, 1, none, [("parent", some 1)]⟩]
      ⟨[⟨1, "parent", 0, Policy.protect⟩], fun _ => true⟩ ⟨1, 0, none, []⟩ 5
      0 0 [] none initState).2.1.mpr (by decide)

theorem findRec_map (g : Record → Record) (hid : ∀ r, (g r).id = r.id) (db : DB) (i : Nat) :
    findRec (db.map g) i = (findRec db i).map g := by
  induction db with
  | nil => rfl
  | cons r rest ih =>
    unfold findRec at *
    rw [List.map_cons]
    by_cases hpa : (r.id == i) = true
    · have hga : ((g r).id == i) = true := by rw [hid]; exact hpa
      simp only [List.find?, hga, hpa]
      rfl
    · have hpa' : (r.id == i) = false := by simpa using hpa
      have hga : ((g r).id == i) = false := by rw [hid]; exact hpa'
      simp only [List.find?, hga, hpa']
      exact ih

theorem markerOf_map (g : Record → Record) (hid : ∀ r, (g r).id = r.id)
    (hm : ∀ r, (g r).marker = r.marker) (db : DB) (i : Nat) :
    markerOf (db.map g) i = markerOf db i := by
  unfold markerOf
  rw [findRec_map g hid]
  cases findRec db i with
  | none => rfl
  | some r => simp [hm r]

theorem modelAt_map (g : Record → Record) (hid : ∀ r, (g r).id = r.id)
    (hmod : ∀ r, (g r).model = r.model) (db : DB) (i : Nat) :
    modelAt (db.map g) i = modelAt db i := by
  unfold modelAt
  rw [findRec_map g hid]
  cases findRec db i with
  | none => rfl
  | some r => simp [hmod r]

theorem present_map (g : Record → Record) (hid : ∀ r, (g r).id = r.id) (db : DB) (i : Nat) :
    (findRec (db.map g) i).isSome = (findRec db i).isSome := by
  rw [findRec_map g hid]
  cases findRec db i <;> rfl

theorem setField_id (r : Record) (f : String) (v : Option Nat) : (setField r f v).id = r.id := rfl

theorem setField_marker (r : Record) (f : String) (v : Option Nat) :
    (setField r f v).marker = r.marker := rfl

theorem setField_model (r : Record) (f : String) (v : Option Nat) :
    (setField r f v).model = r.model := rfl

theorem setNullOn_pres (db : DB) (cond : Record → Bool) (f : String) (i : Nat) :
    markerOf (setNullOn db cond f) i = markerOf db i ∧
    modelAt (setNullOn db cond f) i = modelAt db i ∧
    (findRec (setNullOn db cond f) i).isSome = (findRec db i).isSome := by
  refine ⟨markerOf_map _ ?_ ?_ db i, modelAt_map _ ?_ ?_ db i, present_map _ ?_ db i⟩ <;>
    intro r <;> by_cases h : cond r = true <;> simp [h, setField_id, setField_marker, setField_model]

theorem markRecord_id_pres (i t : Nat) :
    ∀ r : Record, ((fun r => if r.id = i then { r with marker := some t } else r) r).id = r.id := by
  intro r
  by_cases h : r.id = i <;> simp [h]

theorem markerOf_markRecord_ne (db : DB) (i j t : Nat) (h : i ≠ j) :
    markerOf (markRecord db j t) i = markerOf db i := by
  unfold markRecord markerOf
  rw [findRec_map _ (markRecord_id_pres j t)]
  cases hf : findRec db i with
  | none => rfl
  | some r =>
    have hrid : r.id = i := by
      unfold findRec at hf
      simpa using List.find?_some hf
    have hne : ¬ r.id = j := by rw [hrid]; exact h
    simp [hne]

theorem markerOf_markRecord_self (db : DB) (i t : Nat) (h : (findRec db i).isSome = true) :
    markerOf (markRecord db i t) i = some t := by
  unfold markRecord markerOf
  rw [findRec_map _ (markRecord_id_pres i t)]
  cases hf : findRec db i with
  | none => rw [hf] at h; exact absurd h (by simp)
  | some r =>
    have hrid : r.id = i := by
      unfold findRec at hf
      simpa using List.find?_some hf
    simp [hrid]

theorem modelAt_markRecord (db : DB) (i j t : Nat) :
    modelAt (markRecord db j t) i = modelAt db i := by
  unfold markRecord
  refine modelAt_map _ (markRecord_id_pres j t) ?_ db i
  intro r
  by_cases h : r.id = j <;> simp [h]

theorem present_markRecord (db : DB) (i j t : Nat) :
    (findRec (markRecord db j t) i).isSome = (findRec db i).isSome := by
  unfold markRecord
  exact present_map _ (markRecord_id_pres j t) db i

theorem findRec_removeRecord_ne (db : DB) (i j : Nat) (h : i ≠ j) :
    findRec (removeRecord db j) i = findRec db i := by
  unfold removeRecord findRec
  induction db with
  | nil => rfl
  | cons r rest ih =>
    by_cases hj : (r.id != j) = true
    · rw [List.filter_cons, if_pos hj]
      by_cases hi : (r.id == i) = true
      · simp only [List.find?, hi]
      · have hi' : (r.id == i) = false := by simpa using hi
        simp only [List.find?, hi']
        exact ih
    · have hj' : (r.id != j) = false := by simpa using hj
      rw [List.filter_cons, if_neg (by rw [hj']; exact Bool.false_ne_true)]
      have hrj : r.id = j := by simpa using hj
      have hi' : (r.id == i) = false := by
        simp only [beq_eq_false_iff_ne, ne_eq, hrj]
        exact fun hh => h hh.symm
      simp only [List.find?, hi']
      exact ih

theorem applyEntry_pres (db : DB) (sc : Schema) (e : (Nat × String) × List FieldBatch)
    (i : Nat) :
    markerOf (applyEntry db sc e) i = markerOf db i ∧
    modelAt (applyEntry db sc e) i = modelAt db i ∧
    (findRec (applyEntry db sc e) i).isSome = (findRec db i).isSome := by
  simp only [applyEntry]
  split
  · split
    · exact ⟨rfl, rfl, rfl⟩
    · exact setNullOn_pres db _ _ i
  · split
    · refine ⟨?_, ?_, ?_⟩
      · exact (setNullOn_pres db _ _ i).1
      · exact (setNullOn_pres db _ _ i).2.1
      · exact (setNullOn_pres db _ _ i).2.2
    · refine ⟨?_, ?_, ?_⟩
      · rw [(setNullOn_pres _ _ _ i).1, (setNullOn_pres db _ _ i).1]
      · rw [(setNullOn_pres _ _ _ i).2.1, (setNullOn_pres db _ _ i).2.1]
      · rw [(setNullOn_pres _ _ _ i).2.2, (setNullOn_pres db _ _ i).2.2]

theorem applyFieldUpdates_pres (sc : Schema) :
    ∀ (entries : List ((Nat × String) × List FieldBatch)) (db : DB) (i : Nat),
      markerOf (applyFieldUpdates db sc entries) i = markerOf db i ∧
      modelAt (applyFieldUpdates db sc entries) i = modelAt db i ∧
      (findRec (applyFieldUpdates db sc entries) i).isSome = (findRec db i).isSome := by
  intro entries
  induction entries with
  | nil => intro db i; exact ⟨rfl, rfl, rfl⟩
  | cons e rest ih =>
    intro db i
    have h1 := applyEntry_pres db sc e i
    have h2 := ih (applyEntry db sc e) i
    unfold applyFieldUpdates at *
    rw [List.foldl_cons]
    exact ⟨h2.1.trans h1.1, h2.2.1.trans h1.2.1, h2.2.2.trans h1.2.2⟩

theorem markerOf_removeRecord_ne (db : DB) (i j : Nat) (h : i ≠ j) :
    markerOf (removeRecord db j) i = markerOf db i := by
  unfold markerOf
  rw [findRec_removeRecord_ne db i j h]

theorem modelAt_removeRecord_ne (db : DB) (i j : Nat) (h : i ≠ j) :
    modelAt (removeRecord db j) i = modelAt db i := by
  unfold modelAt
  rw [findRec_removeRecord_ne db i j h]

theorem present_removeRecord_ne (db : DB) (i j : Nat) (h : i ≠ j) :
    (findRec (removeRecord db j) i).isSome = (findRec db i).isSome := by
  rw [findRec_removeRecord_ne db i j h]

theorem cascadeLoop_cons (sc : Schema) (t : Nat) (db : DB) (obj : Record)
    (rest : List Record) :
    cascadeLoop sc t db (obj :: rest) =
      cascadeLoop sc t
        (if sc.soft obj.model then
          if obj.marker.isNone then markRecord db obj.id t else db
        else removeRecord db obj.id) rest := rfl

/-- The cascade loop leaves record `i` alone when every processed snapshot
either has a different pk, or is a soft-deletable record already removed
at collect time (the skip branch of the loop). -/
theorem cascadeLoop_pres (sc : Schema) (t : Nat) :
    ∀ (objs : List Record) (db : DB) (i : Nat),
      (∀ obj ∈ objs, obj.id ≠ i ∨ (sc.soft obj.model = true ∧ obj.marker.isNone = false)) →
      markerOf (cascadeLoop sc t db objs) i = markerOf db i ∧
      modelAt (cascadeLoop sc t db objs) i = modelAt db i ∧
      (findRec (cascadeLoop sc t db objs) i).isSome = (findRec db i).isSome := by
  intro objs
  induction objs with
  | nil => intro db i _; exact ⟨rfl, rfl, rfl⟩
  | cons obj rest ih =>
    intro db i hh
    have hobj := hh obj (List.mem_cons_self obj rest)
    have hrest : ∀ o ∈ rest, o.id ≠ i ∨ (sc.soft o.model = true ∧ o.marker.isNone = false) :=
      fun o ho => hh o (List.mem_cons_of_mem obj ho)
    rw [cascadeLoop_cons]
    have hstep :
        markerOf (if sc.soft obj.model then
            if obj.marker.isNone then markRecord db obj.id t else db
          else removeRecord db obj.id) i = markerOf db i ∧
        modelAt (if sc.soft obj.model then
            if obj.marker.isNone then markRecord db obj.id t else db
          else removeRecord db obj.id) i = modelAt db i ∧
        (findRec (if sc.soft obj.model then
            if obj.marker.isNone then markRecord db obj.id t else db
          else removeRecord db obj.id) i).isSome = (findRec db i).isSome := by
      rcases hobj with hne | ⟨hsoft, hmark⟩
      · by_cases hs : sc.soft obj.model = true
        · rw [if_pos hs]
          by_cases hm : obj.marker.isNone = true
          · rw [if_pos hm]
            exact ⟨markerOf_markRecord_ne db i obj.id t (Ne.symm hne),
              modelAt_markRecord db i obj.id t, present_markRecord db i obj.id t⟩
          · rw [if_neg hm]
            exact ⟨rfl, rfl, rfl⟩
        · rw [if_neg hs]
          exact ⟨markerOf_removeRecord_ne db i obj.id (Ne.symm hne),
            modelAt_removeRecord_ne db i obj.id (Ne.symm hne),
            present_removeRecord_ne db i obj.id (Ne.symm hne)⟩
      · rw [if_pos hsoft, if_neg (by rw [hmark]; exact Bool.false_ne_true)]
        exact ⟨rfl, rfl, rfl⟩
    have hrec := ih (if sc.soft obj.model then
        if obj.marker.isNone then markRecord db obj.id t else db
      else removeRecord db obj.id) i hrest
    exact ⟨hrec.1.trans hstep.1, hrec.2.1.trans hstep.2.1, hrec.2.2.trans hstep.2.2⟩

/-- A collected cascade snapshot is never the root and is a faithful
snapshot of the database at collect time. -/
theorem mem_toDelete_props (db : DB) (c : CState) (rootId : Nat) (obj : Record)
    (h : obj ∈ (getRelatedIds c rootId).filterMap (fun i => findRec db i)) :
    obj.id ≠ rootId ∧ findRec db obj.id = some obj := by
  rcases List.mem_filterMap.mp h with ⟨j, hj, hfind⟩
  have hid : obj.id = j := by
    unfold findRec at hfind
    simpa using List.find?_some hfind
  have hjne : j ≠ rootId := by
    unfold getRelatedIds at hj
    simpa using (List.mem_filter.mp hj).2
  constructor
  · rw [hid]; exact hjne
  · rw [hid]; exact hfind

/-- Decomposition of a successful root-level soft delete into its phases:
empty protected set, cascade loop over the collected snapshots, the root's
marker write, the deferred field updates. -/
theorem softDelete_ok_eq (db : DB) (sc : Schema) (root : Record) (t : Nat) (db' : DB)
    (hok : softDelete db sc root t = Except.ok db') :
    (nestedCollect db sc root.model [root.id]).prot = [] ∧
    db' = applyFieldUpdates
        (markRecord
          (cascadeLoop sc t db
            ((getRelatedIds (nestedCollect db sc root.model [root.id]) root.id).filterMap
              (fun i => findRec db i)))
          root.id t)
        sc (nestedCollect db sc root.model [root.id]).fieldUpdates := by
  rcases hp : (nestedCollect db sc root.model [root.id]).prot with _ | ⟨a, l⟩
  · refine ⟨rfl, ?_⟩
    simp only [softDelete, hp, List.isEmpty_nil, if_true] at hok
    simpa using hok.symm
  · exfalso
    simp only [softDelete, hp] at hok
    simp at hok

theorem softDelete_ok_root_marker (db : DB) (sc : Schema) (root : Record) (t : Nat)
    (db' : DB) (hok : softDelete db sc root t = Except.ok db')
    (hpresent : (findRec db root.id).isSome = true) :
    markerOf db' root.id = some t := by
  obtain ⟨_, hdb⟩ := softDelete_ok_eq db sc root t db' hok
  rw [hdb, (applyFieldUpdates_pres sc _ _ root.id).1]
  apply markerOf_markRecord_self
  have hyp : ∀ obj ∈ (getRelatedIds (nestedCollect db sc root.model [root.id]) root.id).filterMap
      (fun i => findRec db i),
      obj.id ≠ root.id ∨ (sc.soft obj.model = true ∧ obj.marker.isNone = false) :=
    fun obj ho => Or.inl (mem_toDelete_props db _ root.id obj ho).1
  rw [(cascadeLoop_pres sc t _ db root.id hyp).2.2]
  exact hpresent

theorem softDelete_ok_preserves_removed (db : DB) (sc : Schema) (root : Record) (t : Nat)
    (db' : DB) (hok : softDelete db sc root t = Except.ok db') (i m v : Nat)
    (hmodel : modelAt db i = some m) (hsoft : sc.soft m = true)
    (hmark : markerOf db i = some v) (hne : root.id ≠ i) :
    markerOf db' i = some v := by
  obtain ⟨_, hdb⟩ := softDelete_ok_eq db sc root t db' hok
  rw [hdb, (applyFieldUpdates_pres sc _ _ i).1,
    markerOf_markRecord_ne _ i root.id t (Ne.symm hne)]
  have hyp : ∀ obj ∈ (getRelatedIds (nestedCollect db sc root.model [root.id]) root.id).filterMap
      (fun i => findRec db i),
      obj.id ≠ i ∨ (sc.soft obj.model = true ∧ obj.marker.isNone = false) := by
    intro obj ho
    by_cases hoi : obj.id = i
    · right
      have hfr := (mem_toDelete_props db _ root.id obj ho).2
      rw [hoi] at hfr
      have hmodel' : obj.model = m := by
        unfold modelAt at hmodel
        rw [hfr] at hmodel
        simpa using hmodel
      have hmark' : obj.marker = some v := by
        unfold markerOf at hmark
        rw [hfr] at hmark
        simpa using hmark
      exact ⟨by rw [hmodel']; exact hsoft, by rw [hmark']; rfl⟩
    · exact Or.inl hoi
  rw [(cascadeLoop_pres sc t _ db i hyp).1]
  exact hmark

/-- C5: a successful explicit soft delete always (re)sets the root's own
marker to the call's current time — last-write-wins even when the root was
already removed — while every other already-removed soft-deletable record
is skipped by the cascade processing and keeps its original timestamp. -/
theorem soft_delete_idempotent (db : DB) (sc : Schema) (root : Record) (t : Nat) (db' : DB)
    (hok : softDelete db sc root t = Except.ok db')
    (hroot : (findRec db root.id).isSome = true) :
    markerOf db' root.id = some t ∧
    (∀ i m v, modelAt db i = some m → sc.soft m = true → markerOf db i = some v →
      root.id ≠ i → markerOf db' i = some v) :=
  ⟨softDelete_ok_root_marker db sc root t db' hok hroot,
    fun i m v h1 h2 h3 h4 =>
      softDelete_ok_preserves_removed db sc root t db' hok i m v h1 h2 h3 h4⟩

/-- Witness for C5: re-deleting an already-removed root at time 7
overwrites its timestamp, while an unrelated already-removed record keeps
its timestamp 3. -/
theorem soft_delete_idempotent_witness :
    markerOf [⟨1, 0, some 7, []⟩, ⟨2, 0, some 3, []⟩] 1 = some 7 ∧
    markerOf [⟨1, 0, some 7, []⟩, ⟨2, 0, some 3, []⟩] 2 = some 3 :=
  have h := soft_delete_idempotent [⟨1, 0, some 0, []⟩, ⟨2, 0, some 3, []⟩]
    ⟨[], fun _ => true⟩ ⟨1, 0, some 0, []⟩ 7 [⟨1, 0, some 7, []⟩, ⟨2, 0, some 3, []⟩]
    (by rfl) (by rfl)
  ⟨h.1, h.2 2 0 3 (by rfl) (by rfl) (by rfl) (by decide)⟩

/-- C3 at the failing input.  Part 1, the claim's scenario: soft-deleting
R (pk 1) sets R's marker, nulls Z.parent (pk 2) through one batched lazy
update and leaves Z's own marker null.  Part 2, the divergence: a
`field_updates` entry holding two already-evaluated batches `[2]` and
`[3]` is NOT applied to all of its matching referencing records — the
`update_batch` pk list is built from the leaked loop variable `instances`
(the last batch only), so record 2 keeps `parent = 1` while only record 3
is nulled. -/
theorem set_null_scenario_and_batch_bug :
    softDelete [⟨1, 0, none, []⟩, ⟨2, 1, none, [("parent", some 1)]⟩]
        ⟨[⟨1, "parent", 0, Policy.setNull⟩], fun _ => true⟩ ⟨1, 0, none, []⟩ 5 =
      Except.ok [⟨1, 0, some 5, []⟩, ⟨2, 1, none, [("parent", none)]⟩] ∧
    applyFieldUpdates
        [⟨1, 0, none, []⟩, ⟨2, 1, none, [("parent", some 1)]⟩,
          ⟨3, 1, none, [("parent", some 1)]⟩]
        ⟨[⟨1, "parent", 0, Policy.setNull⟩], fun _ => true⟩
        [((1, "parent"), [FieldBatch.cached [2], FieldBatch.cached [3]])] =
      [⟨1, 0, none, []⟩, ⟨2, 1, none, [("parent", some 1)]⟩,
        ⟨3, 1, none, [("parent", none)]⟩] :=
  ⟨rfl, rfl⟩

theorem addNested_cons (db : DB) (sf : Option String) (i : Nat) (rest : List Nat)
    (s : CState) :
    addNested db (i :: rest) sf s = addNested db rest sf (addNested db [i] sf s) := rfl

theorem addNested_single_state (db : DB) (sf : Option String) (i : Nat) (s : CState) :
    (addNested db [i] sf s).prot = s.prot ∧ (addNested db [i] sf s).seen = s.seen ∧
      (addNested db [i] sf s).fieldUpdates = s.fieldUpdates := by
  unfold addNested
  refine ⟨?_, ?_, ?_⟩ <;> rfl

theorem addNested_state (db : DB) (sf : Option String) :
    ∀ (ids : List Nat) (s : CState),
      (addNested db ids sf s).prot = s.prot ∧ (addNested db ids sf s).seen = s.seen ∧
        (addNested db ids sf s).fieldUpdates = s.fieldUpdates := by
  intro ids
  induction ids with
  | nil => intro s; exact ⟨rfl, rfl, rfl⟩
  | cons i rest ih =>
    intro s
    rw [addNested_cons]
    have h1 := addNested_single_state db sf i s
    have h2 := ih (addNested db [i] sf s)
    exact ⟨h2.1.trans h1.1, h2.2.1.trans h1.2.1, h2.2.2.trans h1.2.2⟩

theorem catchWrap_none (nest : Bool) (p : CState × Option (List Nat)) (h : p.2 = none) :
    catchWrap nest p = (p.1, none) := by
  cases p with
  | mk a b =>
    simp only at h
    subst h
    cases nest with
    | false => rfl
    | true => rfl

/-- On a reference list free of PROTECT policies, the reference walk never
aborts and never grows the protected set. -/
theorem collectRefs_protect_free (db : DB) (sc : Schema) (nest : Bool) (fuel : Nat)
    (hrec : ∀ (mdl : Nat) (ids : List Nat) (sf : Option String) (s : CState),
      (collectRec db sc nest fuel mdl ids sf s).2 = none ∧
      (collectRec db sc nest fuel mdl ids sf s).1.prot = s.prot) :
    ∀ (refs : List Reference), (∀ ref ∈ refs, ref.policy ≠ Policy.protect) →
      ∀ (batch : List Nat) (s : CState),
        (collectRefs db sc nest fuel refs batch s).2 = none ∧
        (collectRefs db sc nest fuel refs batch s).1.prot = s.prot := by
  intro refs
  induction refs with
  | nil => intro _ batch s; exact ⟨rfl, rfl⟩
  | cons ref rest ih =>
    intro hp batch s
    have hprest : ∀ r ∈ rest, r.policy ≠ Policy.protect :=
      fun r hr => hp r (List.mem_cons_of_mem ref hr)
    rw [collectRefs_cons]
    by_cases hch : (relatedObjects db sc ref batch).isEmpty
    · rw [if_pos hch]
      exact ih hprest batch s
    · rw [if_neg hch]
      cases hpol : ref.policy with
      | protect => exact absurd hpol (hp ref (List.mem_cons_self ref rest))
      | cascade =>
        have hr := hrec ref.fromModel ((relatedObjects db sc ref batch).map (fun r => r.id))
          (some ref.field) s
        rcases hcr : collectRec db sc nest fuel ref.fromModel
            ((relatedObjects db sc ref batch).map (fun r => r.id)) (some ref.field) s with ⟨s', e⟩
        rw [hcr] at hr
        have he : e = none := hr.1
        subst he
        simp only [hcr]
        have hih := ih hprest batch s'
        exact ⟨hih.1, hih.2.trans hr.2⟩
      | setNull =>
        have hih := ih hprest batch
          (addFieldUpdate s (ref.fromModel, ref.field) (FieldBatch.lazy batch))
        exact ⟨hih.1, hih.2.trans rfl⟩

/-- On a PROTECT-free schema, collection never aborts and the protected
set stays as given. -/
theorem collectRec_protect_free (db : DB) (sc : Schema) (nest : Bool)
    (hpf : ∀ ref ∈ sc.refs, ref.policy ≠ Policy.protect) :
    ∀ (fuel mdl : Nat) (ids : List Nat) (sf : Option String) (s : CState),
      (collectRec db sc nest fuel mdl ids sf s).2 = none ∧
      (collectRec db sc nest fuel mdl ids sf s).1.prot = s.prot := by
  intro fuel
  induction fuel with
  | zero => intro mdl ids sf s; exact ⟨rfl, rfl⟩
  | succ fuel ih =>
    intro mdl ids sf s
    rw [collectRec_succ]
    have hpre : (preState db nest ids sf s).prot = s.prot := by
      unfold preState
      cases nest with
      | false => exact rfl
      | true => exact (addNested_state db sf ids s).1
    by_cases hemp : (newOf (preState db nest ids sf s) ids).isEmpty
    · rw [if_pos hemp]
      exact ⟨rfl, hpre⟩
    · rw [if_neg hemp]
      have hrefs := collectRefs_protect_free db sc nest fuel ih
        (sc.refs.filter (fun rf => rf.toModel == mdl))
        (fun ref hr => hpf ref (List.mem_filter.mp hr).1)
        (newOf (preState db nest ids sf s) ids)
        { preState db nest ids sf s with
          seen := (preState db nest ids sf s).seen ++ newOf (preState db nest ids sf s) ids }
      rw [catchWrap_none nest _ hrefs.1]
      exact ⟨rfl, hrefs.2.trans hpre⟩

/-- On a PROTECT-free schema every root-level soft delete succeeds. -/
theorem protectFree_softDelete_ok (db : DB) (sc : Schema) (root : Record) (t : Nat)
    (hpf : ∀ ref ∈ sc.refs, ref.policy ≠ Policy.protect) :
    ∃ db', softDelete db sc root t = Except.ok db' := by
  have hprot : (nestedCollect db sc root.model [root.id]).prot = [] := by
    unfold nestedCollect
    exact (collectRec_protect_free db sc true hpf (db.length + 1) root.model [root.id]
      none initState).2
  simp only [softDelete, hprot, List.isEmpty_nil, if_true]
  exact ⟨_, rfl⟩

theorem cascadeLoop_pres_model (sc : Schema) (t : Nat) :
    ∀ (objs : List Record) (db : DB) (i : Nat),
      (∀ obj ∈ objs, obj.id ≠ i ∨ sc.soft obj.model = true) →
      modelAt (cascadeLoop sc t db objs) i = modelAt db i ∧
      (findRec (cascadeLoop sc t db objs) i).isSome = (findRec db i).isSome := by
  intro objs
  induction objs with
  | nil => intro db i _; exact ⟨rfl, rfl⟩
  | cons obj rest ih =>
    intro db i hh
    have hobj := hh obj (List.mem_cons_self obj rest)
    have hrest : ∀ o ∈ rest, o.id ≠ i ∨ sc.soft o.model = true :=
      fun o ho => hh o (List.mem_cons_of_mem obj ho)
    rw [cascadeLoop_cons]
    have hstep :
        modelAt (if sc.soft obj.model then
            if obj.marker.isNone then markRecord db obj.id t else db
          else removeRecord db obj.id) i = modelAt db i ∧
        (findRec (if sc.soft obj.model then
            if obj.marker.isNone then markRecord db obj.id t else db
          else removeRecord db obj.id) i).isSome = (findRec db i).isSome := by
      by_cases hs : sc.soft obj.model = true
      · rw [if_pos hs]
        by_cases hm : obj.marker.isNone = true
        · rw [if_pos hm]
          exact ⟨modelAt_markRecord db i obj.id t, present_markRecord db i obj.id t⟩
        · rw [if_neg hm]
          exact ⟨rfl, rfl⟩
      · rw [if_neg hs]
        rcases hobj with hne | hsoft
        · exact ⟨modelAt_removeRecord_ne db i obj.id (Ne.symm hne),
            present_removeRecord_ne db i obj.id (Ne.symm hne)⟩
        · exact absurd hsoft hs
    have hrec := ih (if sc.soft obj.model then
        if obj.marker.isNone then markRecord db obj.id t else db
      else removeRecord db obj.id) i hrest
    exact ⟨hrec.1.trans hstep.1, hrec.2.trans hstep.2⟩

theorem present_of_modelAt (db : DB) (i m : Nat) (h : modelAt db i = some m) :
    (findRec db i).isSome = true := by
  unfold modelAt at h
  cases hf : findRec db i with
  | none => rw [hf] at h; simp at h
  | some r => rfl

/-- A successful soft delete keeps every record of a soft-deletable model
in place with its model unchanged (soft records are never physically
removed). -/
theorem softDelete_ok_soft_presence (db : DB) (sc : Schema) (root : Record) (t : Nat)
    (db' : DB) (hok : softDelete db sc root t = Except.ok db') (i m : Nat)
    (hmodel : modelAt db i = some m) (hsoft : sc.soft m = true) :
    modelAt db' i = some m ∧ (findRec db' i).isSome = (findRec db i).isSome := by
  obtain ⟨_, hdb⟩ := softDelete_ok_eq db sc root t db' hok
  have hyp : ∀ obj ∈ (getRelatedIds (nestedCollect db sc root.model [root.id]) root.id).filterMap
      (fun i => findRec db i), obj.id ≠ i ∨ sc.soft obj.model = true := by
    intro obj ho
    by_cases hoi : obj.id = i
    · right
      have hfr := (mem_toDelete_props db _ root.id obj ho).2
      rw [hoi] at hfr
      have hm : obj.model = m := by
        unfold modelAt at hmodel
        rw [hfr] at hmodel
        simpa using hmodel
      rw [hm]
      exact hsoft
    · exact Or.inl hoi
  constructor
  · rw [hdb, (applyFieldUpdates_pres sc _ _ i).2.1, modelAt_markRecord,
      (cascadeLoop_pres_model sc t _ db i hyp).1]
    exact hmodel
  · rw [hdb, (applyFieldUpdates_pres sc _ _ i).2.2, present_markRecord,
      (cascadeLoop_pres_model sc t _ db i hyp).2]

theorem qsSoftLoop_cons (sc : Schema) (t : Nat) (db : DB) (obj : Record)
    (rest : List Record) :
    qsSoftLoop sc t db (obj :: rest) =
      (match softDelete db sc obj t with
      | Except.ok db' => qsSoftLoop sc t db' rest
      | Except.error e => (db, some e)) := rfl

theorem qsSoftLoop_pres_removed (sc : Schema) (t : Nat)
    (hpf : ∀ ref ∈ sc.refs, ref.policy ≠ Policy.protect) :
    ∀ (objs : List Record) (db : DB) (i m v : Nat),
      modelAt db i = some m → sc.soft m = true → markerOf db i = some v →
      (∀ o ∈ objs, o.id ≠ i) →
      markerOf (qsSoftLoop sc t db objs).1 i = some v := by
  intro objs
  induction objs with
  | nil => intro db i m v _ _ h3 _; exact h3
  | cons obj rest ih =>
    intro db i m v h1 h2 h3 h4
    obtain ⟨db1, hok⟩ := protectFree_softDelete_ok db sc obj t hpf
    rw [qsSoftLoop_cons]
    simp only [hok]
    have hne : obj.id ≠ i := h4 obj (List.mem_cons_self obj rest)
    have hm1 : markerOf db1 i = some v :=
      softDelete_ok_preserves_removed db sc obj t db1 hok i m v h1 h2 h3 hne
    have hmo1 : modelAt db1 i = some m :=
      (softDelete_ok_soft_presence db sc obj t db1 hok i m h1 h2).1
    exact ih db1 i m v hmo1 h2 hm1 (fun o ho => h4 o (List.mem_cons_of_mem obj ho))

theorem qsSoftLoop_ok_marks (sc : Schema) (t : Nat)
    (hpf : ∀ ref ∈ sc.refs, ref.policy ≠ Policy.protect) :
    ∀ (objs : List Record) (db : DB),
      (∀ obj ∈ objs, modelAt db obj.id = some obj.model ∧ sc.soft obj.model = true) →
      List.Pairwise (fun a b => a.id ≠ b.id) objs →
      (qsSoftLoop sc t db objs).2 = none ∧
      ∀ obj ∈ objs, markerOf (qsSoftLoop sc t db objs).1 obj.id = some t := by
  intro objs
  induction objs with
  | nil =>
    intro db _ _
    exact ⟨rfl, fun obj h => absurd h (List.not_mem_nil obj)⟩
  | cons obj rest ih =>
    intro db hmods hpw
    obtain ⟨db1, hok⟩ := protectFree_softDelete_ok db sc obj t hpf
    rw [qsSoftLoop_cons]
    simp only [hok]
    have hobj := hmods obj (List.mem_cons_self obj rest)
    rcases List.pairwise_cons.mp hpw with ⟨hhd, htl⟩
    have hmods1 : ∀ o ∈ rest, modelAt db1 o.id = some o.model ∧ sc.soft o.model = true := by
      intro o ho
      have h := hmods o (List.mem_cons_of_mem obj ho)
      exact ⟨(softDelete_ok_soft_presence db sc obj t db1 hok o.id o.model h.1 h.2).1, h.2⟩
    have hih := ih db1 hmods1 htl
    refine ⟨hih.1, ?_⟩
    intro o ho
    rcases List.mem_cons.mp ho with rfl | hm
    · have hmark1 : markerOf db1 o.id = some t :=
        softDelete_ok_root_marker db sc o t db1 hok (present_of_modelAt db o.id o.model hobj.1)
      have hmo1 : modelAt db1 o.id = some o.model :=
        (softDelete_ok_soft_presence db sc o t db1 hok o.id o.model hobj.1 hobj.2).1
      exact qsSoftLoop_pres_removed sc t hpf rest db1 o.id o.model t hmo1 hobj.2 hmark1
        (fun o' ho' => (hhd o' ho').symm)
    · exact hih.2 o hm

theorem findRec_of_mem_nodup (db : DB) (hnd : (db.map (fun r => r.id)).Nodup)
    (r : Record) (hr : r ∈ db) : findRec db r.id = some r := by
  induction db with
  | nil => exact absurd hr (List.not_mem_nil r)
  | cons h rest ih =>
    rw [List.map_cons, List.nodup_cons] at hnd
    rcases List.mem_cons.mp hr with rfl | hm
    · unfold findRec
      simp only [List.find?, beq_self_eq_true]
    · have hne : h.id ≠ r.id := by
        intro he
        exact hnd.1 (by rw [he]; exact List.mem_map_of_mem _ hm)
      have hb : (h.id == r.id) = false := by simpa using hne
      unfold findRec at *
      simp only [List.find?, hb]
      exact ih hnd.2 hm

theorem qsRecords_pairwise (db : DB) (qs : LDQuerySet)
    (hnd : (db.map (fun r => r.id)).Nodup) :
    List.Pairwise (fun a b => a.id ≠ b.id) (qsRecords db qs) := by
  have h1 : List.Pairwise (fun (a b : Record) => a.id ≠ b.id) db := List.pairwise_map.mp hnd
  exact List.Pairwise.sublist (List.filter_sublist db) h1

/-- C8: a queryset with a row limit or offset applied makes batch delete —
both the soft path and the forced hard path — fail fast with the
precondition error before reading or mutating anything; without a limit,
on a PROTECT-free schema, the soft path applies `soft_delete` to each
matching record individually, so the loop succeeds and every matching
record ends up with its marker set to the current time. -/
theorem batch_delete_precondition_and_soft_path (db : DB) (sc : Schema) (qs : LDQuerySet)
    (t : Nat) :
    (qs.limited = true →
      qsDelete db sc qs t true = (db, some DErr.precondition) ∧
      qsDelete db sc qs t false = (db, some DErr.precondition)) ∧
    (qs.limited = false → (∀ ref ∈ sc.refs, ref.policy ≠ Policy.protect) →
      (db.map (fun r => r.id)).Nodup → sc.soft qs.mdl = true →
      (qsDelete db sc qs t false).2 = none ∧
      ∀ r ∈ qsRecords db qs, markerOf (qsDelete db sc qs t false).1 r.id = some t) := by
  constructor
  · intro hlim
    constructor
    · simp [qsDelete, qsHardDelete, hlim]
    · simp [qsDelete, hlim]
  · intro hlim hpf hnd hsoft
    have hqd : qsDelete db sc qs t false = qsSoftLoop sc t db (qsRecords db qs) := by
      simp only [qsDelete, Bool.false_eq_true, if_false]
      rw [if_neg (by rw [hlim]; exact Bool.false_ne_true)]
    have hmods : ∀ r ∈ qsRecords db qs,
        modelAt db r.id = some r.model ∧ sc.soft r.model = true := by
      intro r hr
      have hmem : r ∈ db := (List.mem_filter.mp hr).1
      have hcond := (List.mem_filter.mp hr).2
      rw [Bool.and_eq_true, Bool.and_eq_true] at hcond
      have hmdl : r.model = qs.mdl := by simpa using hcond.1.2
      constructor
      · unfold modelAt
        rw [findRec_of_mem_nodup db hnd r hmem]
        rfl
      · rw [hmdl]
        exact hsoft
    have hpw := qsRecords_pairwise db qs hnd
    have h := qsSoftLoop_ok_marks sc t hpf (qsRecords db qs) db hmods hpw
    rw [hqd]
    exact h

/-- Witness for C8: a limited queryset fails fast on the hard path over a
concrete database, and an unlimited one soft-deletes its match. -/
theorem batch_delete_precondition_and_soft_path_witness :
    qsDelete [⟨1, 0, none, []⟩] ⟨[], fun _ => true⟩ ⟨0, [], true⟩ 5 true =
      ([⟨1, 0, none, []⟩], some DErr.precondition) ∧
    markerOf (qsDelete [⟨1, 0, none, []⟩] ⟨[], fun _ => true⟩ ⟨0, [], false⟩ 5 false).1 1 =
      some 5 :=
  ⟨((batch_delete_precondition_and_soft_path [⟨1, 0, none, []⟩] ⟨[], fun _ => true⟩
      ⟨0, [], true⟩ 5).1 rfl).1,
    ((batch_delete_precondition_and_soft_path [⟨1, 0, none, []⟩] ⟨[], fun _ => true⟩
        ⟨0, [], false⟩ 5).2 rfl (fun ref hr => absurd hr (List.not_mem_nil ref))
        (by decide) rfl).2 ⟨1, 0, none, []⟩ (by decide)⟩

/-- C10: when the manager provides `all_with_deleted`, uniqueness
validation considers soft-deleted rows too — any stored record of the
checked model matching the built lookup values makes the check report an
error, even when that record's soft-delete marker is non-null. -/
theorem unique_check_sees_soft_deleted (db : DB) (mdl : Nat) (pkFields : List String)
    (inst : ValInstance) (uc : List String) (lks : List (String × Nat)) (r : Record)
    (m : Nat)
    (hbuild : buildLookup pkFields inst uc = some lks)
    (hr : r ∈ db) (hmdl : r.model = mdl)
    (hmatch : ∀ kv ∈ lks, fieldVal r kv.1 = some kv.2)
    (hmarker : r.marker = some m)
    (hexcl : ∀ p, inst.pkVal = some p → r.id ≠ p) :
    performUniqueChecks true db mdl pkFields inst [uc] = true := by
  unfold performUniqueChecks
  simp only [List.any_cons, List.any_nil, Bool.or_false, hbuild]
  have hqs : r ∈ uniqueCheckQS true db mdl lks := by
    unfold uniqueCheckQS
    rw [if_pos rfl]
    refine List.mem_filter.mpr ⟨hr, ?_⟩
    rw [Bool.and_eq_true]
    refine ⟨by simpa using hmdl, ?_⟩
    rw [List.all_eq_true]
    intro kv hkv
    simpa using hmatch kv hkv
  have hmem : r ∈ (if !inst.adding && inst.pkVal.isSome
      then (uniqueCheckQS true db mdl lks).filter (fun x => some x.id != inst.pkVal)
      else uniqueCheckQS true db mdl lks) := by
    by_cases hcase : (!inst.adding && inst.pkVal.isSome) = true
    · rw [if_pos hcase]
      refine List.mem_filter.mpr ⟨hqs, ?_⟩
      rw [Bool.and_eq_true] at hcase
      rcases Option.isSome_iff_exists.mp hcase.2 with ⟨p, hp⟩
      rw [hp]
      simpa using hexcl p hp
    · rw [if_neg hcase]
      exact hqs
  cases hq : (if !inst.adding && inst.pkVal.isSome
      then (uniqueCheckQS true db mdl lks).filter (fun x => some x.id != inst.pkVal)
      else uniqueCheckQS true db mdl lks) with
  | nil => rw [hq] at hmem; exact absurd hmem (List.not_mem_nil r)
  | cons a l => rfl

/-- Witness for C10: a soft-deleted row with `email = 9` makes adding a
new instance with the same email fail validation. -/
theorem unique_check_sees_soft_deleted_witness :
    performUniqueChecks true [⟨1, 0, some 0, [("email", some 9)]⟩] 0 []
      ⟨none, true, [("email", some 9)]⟩ [["email"]] = true :=
  unique_check_sees_soft_deleted [⟨1, 0, some 0, [("email", some 9)]⟩] 0 []
    ⟨none, true, [("email", some 9)]⟩ ["email"] [("email", 9)]
    ⟨1, 0, some 0, [("email", some 9)]⟩ 0
    (by decide) (by decide) (by decide) (by decide) (by decide)
    (fun p hp => Option.noConfusion hp)

end PinaxModels
